/-
A verification development of the dbsync change-log compaction engine and the
push/pull synchronization handlers, shallowly embedded from
dbsync/client/compression.py and dbsync/server/handlers.py.
-/
import Mathlib

set_option maxRecDepth 8192

namespace DbSync

/-- The three row-level commands recorded in the operations log:
insert (the character i), update (u) and delete (d). -/
inductive Command where
  | i
  | u
  | d
deriving DecidableEq, Repr, Inhabited

/-- A recorded operation as the compression module uses it
(dbsync.models.Operation): node-local sequence number `order`, target row key
`(row_id, content_type_id)` and the command character. -/
structure Operation where
  order : Nat
  row_id : Nat
  content_type_id : Nat
  command : Command
deriving DecidableEq, Repr, Inhabited

/-- The grouping key used by both compaction paths:
the pair of `row_id` and `content_type_id`. -/
def opKey (op : Operation) : Nat × Nat := (op.row_id, op.content_type_id)

/-- The test `op.command == 'u'` applied throughout compression.py. -/
def isUpdate (op : Operation) : Bool := decide (op.command = Command.u)

/-- Comparison by the `order` column, the sort key of both compaction paths. -/
def orderLe (a b : Operation) : Prop := a.order ≤ b.order

instance : DecidableRel orderLe :=
  fun a b => inferInstanceAs (Decidable (a.order ≤ b.order))

instance : IsTotal Operation orderLe := ⟨fun a b => Nat.le_total a.order b.order⟩

instance : IsTrans Operation orderLe := ⟨fun _ _ _ => Nat.le_trans⟩

/-- Python's stable ascending sort by the `order` attribute, as a stable
insertion sort. -/
def sortByOrder (ops : List Operation) : List Operation :=
  List.insertionSort orderLe ops

/-- The distinct keys of a list, each kept at its first occurrence.  Used to
model the key set of `group_by` from dbsync.lang (whose source is external to
the excerpt): it buckets a list by key, preserving the relative order of the
elements inside each bucket; we read the buckets back in deterministic
first-occurrence key order. -/
def dedupKeys : List (Nat × Nat) → List (Nat × Nat)
  | [] => []
  | k :: ks => k :: (dedupKeys ks).filter (fun x => decide (x ≠ k))

/-- Modelled from the spec: `group_by(lambda op: (op.row_id, op.content_type_id), ops)`
of dbsync.lang groups the list into per-row buckets, each bucket keeping the
relative order of the input list. -/
def groupByKey (ops : List Operation) : List (List Operation) :=
  (dedupKeys (ops.map opKey)).map
    (fun k => ops.filter (fun op => decide (opKey op = k)))

/-- The per-bucket body of `compressed_operations` (compression.py lines
78-87), for one per-row sequence sorted ascending by `order` (oldest first):
an Insert followed only by Updates keeps the Insert; an all-Update run keeps
the first Update; a run headed by Update whose last element is Delete keeps
that Delete; otherwise a singleton passes through and anything else
contributes nothing.  The empty case is unreachable: `group_by` never
produces empty buckets. -/
def contribSeq : List Operation → List Operation
  | [] => []
  | op :: rest =>
    if op.command = Command.i ∧ rest.all isUpdate = true then [op]
    else if op.command = Command.u then
      if rest.all isUpdate = true then [op]
      else if ((op :: rest).getLastD op).command = Command.d then
        [(op :: rest).getLastD op]
      else []
    else if rest.isEmpty then [op] else []

/-- `compressed_operations` (compression.py lines 71-89): sort the operations
ascending by `order`, group them per row, collapse each per-row run with
`contribSeq`, and return the collapsed set sorted ascending by `order`. -/
def compressed_operations (operations : List Operation) : List Operation :=
  sortByOrder ((groupByKey (sortByOrder operations)).map contribSeq).flatten

/-- The per-sequence effect of destructive `compress` (compression.py lines
52-66) on one per-row sequence sorted by `order` descending (newest first):
the list of operations that remain in the database after the loop body runs
on the sequence (`session.delete` removes the others).  Sequences of at most
one element are not visited by the loop and stay untouched. -/
def compressSeq : List Operation → List Operation
  | [] => []
  | newest :: rest =>
    if rest.isEmpty then newest :: rest
    else if ((newest :: rest).getLastD newest).command = Command.i then
      if (newest :: rest).dropLast.all isUpdate = true then
        [(newest :: rest).getLastD newest]
      else if newest.command = Command.d then []
      else newest :: rest
    else if ((newest :: rest).getLastD newest).command = Command.u then
      if (newest :: rest).dropLast.all isUpdate = true then [newest]
      else if newest.command = Command.d then [newest]
      else newest :: rest
    else newest :: rest

/-- The diagnostic payload of the consistency assertion of
`_assert_operation_sequence`: the row key and the command sequence listed
from oldest to newest. -/
structure ConsistencyError where
  row_id : Nat
  content_type_id : Nat
  commands_old_to_new : List Command
deriving DecidableEq, Repr

/-- Python's `seq[k] != 'd'` where `seq[k]` is an `Operation` object: an
object is never equal to a string, so the inequality always holds.  This is
exactly what compression.py lines 31 and 33 evaluate. -/
def pyObjNeStr (_op : Operation) (_s : String) : Bool := true

/-- `_assert_operation_sequence` (compression.py lines 10-33) over a per-row
sequence sorted newest first.  It asserts that every interior element is an
Update; the two further asserts compare the `Operation` objects `seq[-1]` and
`seq[0]` themselves (not their `command` attribute) against the strings
representing delete and insert, so they always pass.  The empty case is
unreachable (buckets are nonempty; Python would fail building the message). -/
def assertOperationSequence : List Operation → Except ConsistencyError Unit
  | [] => Except.ok ()
  | first :: rest =>
    let seq := first :: rest
    let err : ConsistencyError :=
      ⟨first.row_id, first.content_type_id, (seq.map Operation.command).reverse⟩
    if ((seq.drop 1).dropLast).all isUpdate = true then
      if 1 < seq.length then
        if pyObjNeStr (seq.getLastD first) "d" = true then
          if pyObjNeStr first "i" = true then Except.ok () else Except.error err
        else Except.error err
      else Except.ok ()
    else Except.error err

/-- The net effect of one command on the presence of the row it targets:
Insert makes the row present, Delete removes it, Update leaves presence
unchanged (operations carry no payload; row data is read live). -/
def applyCommand (present : Bool) : Command → Bool
  | Command.i => true
  | Command.u => present
  | Command.d => false

/-- Replaying a list of operations (in the given list order) against a row
state; `false` is the fresh state in which the row is absent. -/
def replay (present : Bool) (ops : List Operation) : Bool :=
  ops.foldl (fun s op => applyCommand s op.command) present

/-- A legal per-row history sorted ascending (oldest first), as the spec's
validator contract states it: every interior element is an Update, and in a
multi-element history the oldest element is not a Delete and the newest is
not an Insert. -/
def legalAsc (s : List Operation) : Prop :=
  ((s.drop 1).dropLast).all isUpdate = true ∧
    (1 < s.length →
      (s.headD default).command ≠ Command.d ∧
        (s.getLastD default).command ≠ Command.i)

/-- A legal per-row history sorted descending (newest first): the mirror of
`legalAsc`, the form consumed by the destructive path. -/
def legalDesc (s : List Operation) : Prop :=
  ((s.drop 1).dropLast).all isUpdate = true ∧
    (1 < s.length →
      (s.headD default).command ≠ Command.i ∧
        (s.getLastD default).command ≠ Command.d)

/-- A committed version record (dbsync.models.Version): server-assigned id
and the node that pushed it. -/
structure Version where
  version_id : Nat
  node_id : Nat
deriving DecidableEq, Repr, Inhabited

/-- A server-persisted operation row: the re-persisted copy of a pushed
operation, carrying the server-assigned `order` and the `version_id` it was
committed under. -/
structure SOperation where
  order : Nat
  row_id : Nat
  content_type_id : Nat
  command : Command
  version_id : Option Nat
deriving DecidableEq, Repr, Inhabited

/-- A parsed PushMessage (`{node_id, latest_version_id, operations, signature}`);
the signature is an opaque value checked by the black-box `islegit`. -/
structure PushMessage where
  node_id : Nat
  latest_version_id : Option Nat
  operations : List Operation
  signature : Nat
deriving DecidableEq, Repr, Inhabited

/-- Modelled from the spec: the context an OperationError raised by
`op.perform` carries — the offending operation (its source,
dbsync.models, is external to the excerpt). -/
structure OpError where
  op : Operation
deriving DecidableEq, Repr, Inhabited

/-- The PushRejected rejection reasons `handle_push` can raise, in the order
its checks appear (handlers.py lines 160-185).  The version-mismatch reason
carries the integer the message gave: the reason string is built with a
decimal placeholder, so it can only ever hold an actual integer. -/
inductive PushRejectedE where
  | invalidMessage
  | versionMismatch (given : Nat)
  | emptyOperations
  | notSigned
  | operationFailure (node_id : Nat) (err : OpError)
deriving DecidableEq, Repr

/-- How the push handler's transaction body terminates abnormally: with a
PushRejected rejection, or with the TypeError Python raises at handlers.py
line 167 when the mismatch branch formats a missing (None)
`latest_version_id` into the decimal placeholder of the rejection reason
before the PushRejected can be raised. -/
inductive PushError where
  | rejected (r : PushRejectedE)
  | typeError
deriving DecidableEq, Repr

/-- The server database as the handlers read and write it: the version
ledger, the committed operations table, the live row store (as the set of
`(content_type_id, row_id)` keys currently present) and the autoincrement
counter behind the server-assigned `order` column. -/
structure ServerState where
  versions : List Version
  operations : List SOperation
  rows : List (Nat × Nat)
  nextOrder : Nat
deriving DecidableEq, Repr, Inhabited

/-- Modelled from the spec: `core.get_latest_version_id` (external to the
excerpt) returns the maximum version id, or none when the ledger is empty. -/
def latestVersionIdAux : List Version → Option Nat
  | [] => none
  | v :: vs =>
    match latestVersionIdAux vs with
    | none => some v.version_id
    | some m => some (max v.version_id m)

/-- The ledger's current latest version id. -/
def getLatestVersionId (st : ServerState) : Option Nat :=
  latestVersionIdAux st.versions

/-- Modelled from the spec: `op.perform` (dbsync.models, external to the
excerpt) looks up the target row by `(row_id, content_type_id)` and applies
the command, raising an OperationError on a row-level conflict: an Insert
colliding with an existing row, or an Update or Delete on a missing row. -/
def performOp (rows : List (Nat × Nat)) (op : Operation) :
    Except OpError (List (Nat × Nat)) :=
  let k := (op.content_type_id, op.row_id)
  match op.command with
  | Command.i =>
    if k ∈ rows then Except.error ⟨op⟩ else Except.ok (k :: rows)
  | Command.u =>
    if k ∈ rows then Except.ok rows else Except.error ⟨op⟩
  | Command.d =>
    if k ∈ rows then Except.ok (rows.filter (fun x => decide (x ≠ k)))
    else Except.error ⟨op⟩

/-- The `for op in message.operations: op.perform(...)` loop of handle_push:
apply each operation in message order, stopping at the first failure. -/
def performAll (rows : List (Nat × Nat)) :
    List Operation → Except OpError (List (Nat × Nat))
  | [] => Except.ok rows
  | op :: rest =>
    match performOp rows op with
    | Except.error e => Except.error e
    | Except.ok rows2 => performAll rows2 rest

/-- Re-persisting the pushed operations (handlers.py lines 190-196): every
attribute except `order` is copied, `version_id` is set to the new version,
and the `order` column takes fresh server-assigned autoincrement values. -/
def assignOrders (start : Nat) (vid : Nat) : List Operation → List SOperation
  | [] => []
  | op :: rest =>
    { order := start, row_id := op.row_id, content_type_id := op.content_type_id,
      command := op.command, version_id := some vid } :: assignOrders (start + 1) vid rest

/-- The body of `handle_push` (handlers.py lines 150-198) inside its
transaction.  `data` is the parse outcome of the incoming payload (`none`
models the KeyError raised for an invalid PushMessage); `legit` is the
black-box signature verification `message.islegit(session)`.  In the
version-mismatch branch the code first formats the rejection reason with
`%d` applied to `message.latest_version_id` (handlers.py line 167): when
that value is None this raises TypeError instead of PushRejected.  Success
returns the updated state and the new version id; the new version id is the
next one above the ledger's latest (server-assigned, strictly increasing,
modelled from the spec). -/
def handlePushTx (legit : ServerState → PushMessage → Bool)
    (st : ServerState) (data : Option PushMessage) :
    Except PushError (ServerState × Nat) :=
  match data with
  | none => Except.error (PushError.rejected PushRejectedE.invalidMessage)
  | some message =>
    if getLatestVersionId st ≠ message.latest_version_id then
      match message.latest_version_id with
      | none => Except.error PushError.typeError
      | some n => Except.error (PushError.rejected (PushRejectedE.versionMismatch n))
    else if message.operations = [] then
      Except.error (PushError.rejected PushRejectedE.emptyOperations)
    else if legit st message = false then
      Except.error (PushError.rejected PushRejectedE.notSigned)
    else
      match performAll st.rows message.operations with
      | Except.error e =>
        Except.error (PushError.rejected
          (PushRejectedE.operationFailure message.node_id e))
      | Except.ok rows2 =>
        let vid := (getLatestVersionId st).getD 0 + 1
        let news := assignOrders st.nextOrder vid (sortByOrder message.operations)
        Except.ok
          ({ versions := st.versions ++ [⟨vid, message.node_id⟩],
             operations := st.operations ++ news,
             rows := rows2,
             nextOrder := st.nextOrder + message.operations.length }, vid)

/-- `handle_push` under `@core.with_transaction` (modelled from the spec:
any exception — a PushRejected rejection or the TypeError of the mismatch
branch — rolls the transaction back, so the state is returned unchanged
alongside the error). -/
def handle_push (legit : ServerState → PushMessage → Bool)
    (st : ServerState) (data : Option PushMessage) :
    ServerState × Except PushError Nat :=
  match handlePushTx legit st data with
  | Except.error e => (st, Except.error e)
  | Except.ok (st2, vid) => (st2, Except.ok vid)

/-- Whether a push outcome is a PushRejected rejection. -/
def isReject : Except PushError Nat → Bool
  | Except.error (PushError.rejected _) => true
  | _ => false

/-- Whether a push outcome is the TypeError crash of handlers.py line 167. -/
def isTypeError : Except PushError Nat → Bool
  | Except.error PushError.typeError => true
  | _ => false

/-- The outcome of reading the `latest_version_id` GET parameter in
`handle_pull`: the key can be absent, present but not parseable as an
integer, or an integer. -/
inductive RawVid where
  | absent
  | notInt
  | val (n : Int)
deriving DecidableEq, Repr

/-- `int(latest_version_id)` guarded by `except (ValueError, TypeError)`:
absent or unparseable values become `none`. -/
def parseVid : RawVid → Option Int
  | RawVid.val n => some n
  | _ => none

/-- A pull request: the raw `latest_version_id` parameter and whether the
`fast_forward` key is present in the request. -/
structure PullRequest where
  latest_version_id : RawVid
  fast_forward : Bool
deriving DecidableEq, Repr

/-- The reply of `handle_pull` reduced to what the claims are about: the
versions selected for the message and whether row payload objects are
embedded (`swell`). -/
structure PullReply where
  versions : List Version
  swell : Bool
deriving DecidableEq, Repr

/-- `handle_pull` (handlers.py lines 91-117): parse the version parameter,
keep every version above it (or every version when it is absent or
unparseable), and embed payload objects unless `fast_forward` is present. -/
def handle_pull (st : ServerState) (req : PullRequest) : PullReply :=
  let latest := parseVid req.latest_version_id
  let swell := !req.fast_forward
  match latest with
  | none => ⟨st.versions, swell⟩
  | some n => ⟨st.versions.filter (fun v => decide (n < (v.version_id : Int))), swell⟩

/-- Comparison of version records by version id, the order in which the
version store is maintained and read back. -/
def vidLe (a b : Version) : Prop := a.version_id ≤ b.version_id

instance : DecidableRel vidLe :=
  fun a b => inferInstanceAs (Decidable (a.version_id ≤ b.version_id))

/-- The per-row run of operations that `compressed_operations` groups for the
key `k`: the ascending-by-order input restricted to that key. -/
def rowRun (ops : List Operation) (k : Nat × Nat) : List Operation :=
  (sortByOrder ops).filter (fun op => decide (opKey op = k))

/-- Pattern handled first by `compressed_operations`: an Insert followed only
by Updates. -/
def runShapeInsert (s : List Operation) : Prop :=
  (s.headD default).command = Command.i ∧ (s.drop 1).all isUpdate = true

/-- Pattern handled second: a run that is all Updates. -/
def runShapeAllUpdate (s : List Operation) : Prop :=
  (s.headD default).command = Command.u ∧ (s.drop 1).all isUpdate = true

/-- Pattern handled third: a run headed by an Update whose last element is a
Delete. -/
def runShapeEndDelete (s : List Operation) : Prop :=
  (s.headD default).command = Command.u ∧ (s.getLastD default).command = Command.d

/-- Sample operations over one row `(row_id 7, content_type 3)`. -/
def sampleI : Operation := ⟨1, 7, 3, Command.i⟩

def sampleU : Operation := ⟨2, 7, 3, Command.u⟩

def sampleU2 : Operation := ⟨3, 7, 3, Command.u⟩

def sampleD : Operation := ⟨4, 7, 3, Command.d⟩

/-- An empty server database. -/
def st0 : ServerState := ⟨[], [], [], 1⟩

/-- A server state whose ledger holds versions 1 and 2. -/
def stV : ServerState := ⟨[⟨1, 5⟩, ⟨2, 5⟩], [], [], 1⟩

/-- A signature check that accepts everything (a concrete instance of the
black-box `islegit`). -/
def legitAll : ServerState → PushMessage → Bool := fun _ _ => true

/-- A delete with the smallest order over the sample row, to head a run. -/
def sampleD1 : Operation := ⟨1, 7, 3, Command.d⟩

/-- A push whose single operation updates a row absent from `st0`. -/
def msgU : PushMessage := ⟨5, none, [⟨1, 7, 3, Command.u⟩], 0⟩

/-- A push whose single operation inserts a fresh row. -/
def msgI : PushMessage := ⟨5, none, [⟨1, 7, 3, Command.i⟩], 0⟩

/-- The server state reached by pushing `msgI` against `st0`. -/
def stPushed : ServerState :=
  ⟨[⟨1, 5⟩], [⟨1, 7, 3, Command.i, some 1⟩], [(3, 7)], 2⟩

/-! ### Helper lemmas -/

theorem two_le_decomp {α : Type} (seq : List α) (h : 2 ≤ seq.length) :
    ∃ a mid b, seq = a :: (mid ++ [b]) := by
  match seq with
  | [] => simp at h
  | [a] => simp at h
  | a :: rest =>
    have hne : rest ≠ [] := by
      intro hr
      subst hr
      simp at h
    exact ⟨a, rest.dropLast, rest.getLast hne,
      by rw [List.dropLast_concat_getLast hne]⟩

theorem getLastD_cons_concat {α : Type} (a d : α) (mid : List α) (b : α) :
    (a :: (mid ++ [b])).getLastD d = b := by
  rw [List.getLastD_cons, List.getLastD_concat]

theorem dropLast_cons_concat {α : Type} (a : α) (mid : List α) (b : α) :
    (a :: (mid ++ [b])).dropLast = a :: mid := by
  rw [← List.cons_append, List.dropLast_concat]

theorem isUpdate_of_command {op : Operation} (h : op.command = Command.u) :
    isUpdate op = true := by
  simp [isUpdate, h]

theorem not_isUpdate_of_command {op : Operation} {c : Command}
    (h : op.command = c) (hc : c ≠ Command.u) : isUpdate op = false := by
  simp [isUpdate, h]
  exact hc

theorem compressSeq_eval (a : Operation) (mid : List Operation) (b : Operation) :
    compressSeq (a :: (mid ++ [b])) =
      if b.command = Command.i then
        if (a :: mid).all isUpdate = true then [b]
        else if a.command = Command.d then []
        else a :: (mid ++ [b])
      else if b.command = Command.u then
        if (a :: mid).all isUpdate = true then [a]
        else if a.command = Command.d then [a]
        else a :: (mid ++ [b])
      else a :: (mid ++ [b]) := by
  have h1 : (mid ++ [b]).isEmpty = false := by simp
  have h2 : (a :: (mid ++ [b])).getLastD a = b := getLastD_cons_concat a a mid b
  have h3 : (a :: (mid ++ [b])).dropLast = a :: mid := dropLast_cons_concat a mid b
  simp only [compressSeq, h1, h2, h3, Bool.false_eq_true, if_false]

theorem contribSeq_eval (a : Operation) (mid : List Operation) (b : Operation) :
    contribSeq (a :: (mid ++ [b])) =
      if a.command = Command.i ∧ (mid ++ [b]).all isUpdate = true then [a]
      else if a.command = Command.u then
        if (mid ++ [b]).all isUpdate = true then [a]
        else if b.command = Command.d then [b]
        else []
      else [] := by
  have h1 : (mid ++ [b]).isEmpty = false := by simp
  have h2 : (a :: (mid ++ [b])).getLastD a = b := getLastD_cons_concat a a mid b
  simp only [contribSeq, h1, h2, Bool.false_eq_true, if_false]

theorem contribSeq_singleton (x : Operation) : contribSeq [x] = [x] := by
  rcases hc : x.command <;> simp [contribSeq, hc, isUpdate]

theorem compressSeq_small {seq : List Operation} (h : seq.length ≤ 1) :
    compressSeq seq = seq := by
  match seq with
  | [] => rfl
  | [x] => simp [compressSeq]
  | a :: b :: t => simp at h

/-! ### Claim theorems -/

/-- C3: for every per-row sequence (newest to oldest) processed by destructive
compaction: oldest Insert with all newer Updates keeps only the Insert; oldest
Insert with newest Delete deletes the whole sequence; an all-Update sequence
keeps only the newest Update; oldest Update with newest Delete keeps only the
Delete; singletons and sequences matching none of these shapes are left
untouched. -/
theorem compress_spec (seq : List Operation) :
    (2 ≤ seq.length →
      ((seq.getLastD default).command = Command.i → seq.dropLast.all isUpdate = true →
        compressSeq seq = [seq.getLastD default]) ∧
      ((seq.getLastD default).command = Command.i → (seq.headD default).command = Command.d →
        compressSeq seq = []) ∧
      (seq.all isUpdate = true → compressSeq seq = [seq.headD default]) ∧
      ((seq.getLastD default).command = Command.u → (seq.headD default).command = Command.d →
        compressSeq seq = [seq.headD default]) ∧
      (¬((seq.getLastD default).command = Command.i ∧ seq.dropLast.all isUpdate = true) →
        ¬((seq.getLastD default).command = Command.i ∧ (seq.headD default).command = Command.d) →
        ¬(seq.all isUpdate = true) →
        ¬((seq.getLastD default).command = Command.u ∧ (seq.headD default).command = Command.d) →
        compressSeq seq = seq)) ∧
    (seq.length = 1 → compressSeq seq = seq) := by
  constructor
  · intro h2
    obtain ⟨a, mid, b, rfl⟩ := two_le_decomp seq h2
    rw [getLastD_cons_concat, dropLast_cons_concat]
    have hhead : (a :: (mid ++ [b])).headD default = a := rfl
    rw [hhead, compressSeq_eval]
    refine ⟨?_, ?_, ?_, ?_, ?_⟩
    · intro hb hall
      rw [if_pos hb, if_pos hall]
    · intro hb ha
      have hnall : ¬((a :: mid).all isUpdate = true) := by
        simp only [List.all_cons, Bool.and_eq_true]
        intro hc
        rw [not_isUpdate_of_command ha (by simp)] at hc
        exact absurd hc.1 (by simp)
      rw [if_pos hb, if_neg hnall, if_pos ha]
    · intro hall
      have hb : isUpdate b = true := by
        have := (List.all_eq_true.mp hall) b (by simp)
        exact this
      have hbc : b.command = Command.u := by
        simpa [isUpdate] using hb
      have hbi : ¬(b.command = Command.i) := by rw [hbc]; simp
      have hfront : (a :: mid).all isUpdate = true := by
        rw [List.all_eq_true] at hall ⊢
        intro x hx
        apply hall
        rcases List.mem_cons.mp hx with h | h
        · exact List.mem_cons.mpr (Or.inl h)
        · exact List.mem_cons.mpr (Or.inr (List.mem_append.mpr (Or.inl h)))
      rw [if_neg hbi, if_pos hbc, if_pos hfront]
    · intro hb ha
      have hbi : ¬(b.command = Command.i) := by rw [hb]; simp
      have hnall : ¬((a :: mid).all isUpdate = true) := by
        simp only [List.all_cons, Bool.and_eq_true]
        intro hc
        rw [not_isUpdate_of_command ha (by simp)] at hc
        exact absurd hc.1 (by simp)
      rw [if_neg hbi, if_pos hb, if_neg hnall, if_pos ha]
    · intro hn1 hn2 hn3 hn4
      rcases hb : b.command
      · have hnall : ¬((a :: mid).all isUpdate = true) := fun hc => hn1 ⟨hb, hc⟩
        have hnad : ¬(a.command = Command.d) := fun hc => hn2 ⟨hb, hc⟩
        simp [hnall, hnad]
      · have hnall : ¬((a :: mid).all isUpdate = true) := by
          intro hc
          apply hn3
          rw [List.all_eq_true] at hc ⊢
          intro x hx
          rcases List.mem_cons.mp hx with h | h
          · exact hc x (List.mem_cons.mpr (Or.inl h))
          · rcases List.mem_append.mp h with h | h
            · exact hc x (List.mem_cons.mpr (Or.inr h))
            · have hxb : x = b := by simpa using h
              rw [hxb]
              exact isUpdate_of_command hb
        have hnad : ¬(a.command = Command.d) := fun hc => hn4 ⟨hb, hc⟩
        simp [hnall, hnad]
      · simp
  · intro h1
    exact compressSeq_small (by omega)

theorem list_shape {α : Type} (l : List α) :
    l = [] ∨ (∃ x, l = [x]) ∨ ∃ a mid b, l = a :: (mid ++ [b]) := by
  match l with
  | [] => exact Or.inl rfl
  | [x] => exact Or.inr (Or.inl ⟨x, rfl⟩)
  | a :: b :: t =>
    refine Or.inr (Or.inr (two_le_decomp _ ?_))
    simp

theorem contribSeq_length_le (s : List Operation) : (contribSeq s).length ≤ 1 := by
  rcases list_shape s with h | ⟨x, h⟩ | ⟨a, mid, b, h⟩
  · subst h; simp [contribSeq]
  · subst h; rw [contribSeq_singleton]; simp
  · subst h
    rw [contribSeq_eval]
    split_ifs <;> simp

theorem contribSeq_subset {s : List Operation} {x : Operation}
    (h : x ∈ contribSeq s) : x ∈ s := by
  rcases list_shape s with hs | ⟨y, hs⟩ | ⟨a, mid, b, hs⟩
  · subst hs; simp [contribSeq] at h
  · subst hs; rw [contribSeq_singleton] at h; exact h
  · subst hs
    rw [contribSeq_eval] at h
    split_ifs at h <;> simp_all

theorem replay_cons (s : Bool) (op : Operation) (l : List Operation) :
    replay s (op :: l) = replay (applyCommand s op.command) l := rfl

theorem replay_append (s : Bool) (l1 l2 : List Operation) :
    replay s (l1 ++ l2) = replay (replay s l1) l2 := by
  simp [replay, List.foldl_append]

theorem replay_all_update {l : List Operation} (h : l.all isUpdate = true)
    (s : Bool) : replay s l = s := by
  induction l generalizing s with
  | nil => rfl
  | cons op rest ih =>
    rw [List.all_cons, Bool.and_eq_true] at h
    have hc : op.command = Command.u := by simpa [isUpdate] using h.1
    rw [replay_cons, hc]
    exact ih h.2 _

/-- C2 (evaluating the code at inputs the claim requires it to reject): the
validator accepts a two-element sequence whose oldest operation is a Delete,
and one whose newest operation is an Insert, because the code compares the
`Operation` objects themselves (never equal to a string) instead of their
`command`; only the interior-Update assert is live. -/
theorem assert_sequence_code_bug :
    assertOperationSequence [⟨2, 7, 3, Command.u⟩, ⟨1, 7, 3, Command.d⟩] = Except.ok () ∧
    assertOperationSequence [⟨2, 7, 3, Command.i⟩, ⟨1, 7, 3, Command.u⟩] = Except.ok () ∧
    assertOperationSequence [⟨3, 7, 3, Command.u⟩, ⟨2, 7, 3, Command.d⟩, ⟨1, 7, 3, Command.u⟩]
      = Except.error ⟨7, 3, [Command.u, Command.d, Command.u]⟩ :=
  ⟨rfl, rfl, rfl⟩

/-- C6: net-effect preservation — replaying the output of either compaction
path against a fresh row state gives the same final row state as replaying
the original legal per-row sequence (ascending runs for the pure path,
descending sequences for the destructive path). -/
theorem compression_net_effect (s : List Operation) :
    (s ≠ [] → legalAsc s → replay false (contribSeq s) = replay false s) ∧
    (s ≠ [] → legalDesc s →
      replay false (compressSeq s).reverse = replay false s.reverse) := by
  rcases list_shape s with hs | ⟨x, hs⟩ | ⟨a, mid, b, hs⟩
  · subst hs; exact ⟨fun h => absurd rfl h, fun h => absurd rfl h⟩
  · subst hs
    constructor
    · intro _ _; rw [contribSeq_singleton]
    · intro _ _; rw [compressSeq_small (by simp)]
  · subst hs
    have hlen : 1 < (a :: (mid ++ [b])).length := by simp
    have hint : (((a :: (mid ++ [b])).drop 1).dropLast).all isUpdate = true →
        mid.all isUpdate = true := by
      intro h
      simpa using h
    constructor
    · rintro _ ⟨hmid0, hends⟩
      have hmid : mid.all isUpdate = true := hint hmid0
      obtain ⟨hhead, hlast⟩ := hends hlen
      rw [List.headD_cons] at hhead
      rw [getLastD_cons_concat] at hlast
      have horig : replay false (a :: (mid ++ [b])) =
          applyCommand (applyCommand false a.command) b.command := by
        rw [replay_cons, replay_append, replay_all_update hmid, replay_cons]
        rfl
      rw [horig, contribSeq_eval]
      rcases ha : a.command with h1 | h1 | h1
      · rcases hb : b.command
        · exact absurd hb hlast
        · have hall : (mid ++ [b]).all isUpdate = true := by
            rw [List.all_append, Bool.and_eq_true]
            exact ⟨hmid, by simp [isUpdate, hb]⟩
          rw [if_pos ⟨rfl, hall⟩]
          simp [replay, applyCommand, ha, hb]
        · have hnall : ¬((mid ++ [b]).all isUpdate = true) := by
            rw [List.all_append, Bool.and_eq_true]
            intro hc
            have := hc.2
            simp [isUpdate, hb] at this
          rw [if_neg (fun hc => hnall hc.2), if_neg (by simp)]
          simp [replay, applyCommand, ha, hb]
      · rcases hb : b.command
        · exact absurd hb hlast
        · have hall : (mid ++ [b]).all isUpdate = true := by
            rw [List.all_append, Bool.and_eq_true]
            exact ⟨hmid, by simp [isUpdate, hb]⟩
          rw [if_neg (by simp), if_pos rfl, if_pos hall]
          simp [replay, applyCommand, ha, hb]
        · have hnall : ¬((mid ++ [b]).all isUpdate = true) := by
            rw [List.all_append, Bool.and_eq_true]
            intro hc
            have := hc.2
            simp [isUpdate, hb] at this
          rw [if_neg (fun hc => hnall hc.2), if_pos rfl, if_neg hnall, if_pos rfl]
          simp [replay, applyCommand, ha, hb]
      · exact absurd ha hhead
    · rintro _ ⟨hmid0, hends⟩
      have hmid : mid.all isUpdate = true := hint hmid0
      obtain ⟨hhead, hlast⟩ := hends hlen
      rw [List.headD_cons] at hhead
      rw [getLastD_cons_concat] at hlast
      have hrev : (a :: (mid ++ [b])).reverse = b :: (mid.reverse ++ [a]) := by
        simp
      have hmidrev : mid.reverse.all isUpdate = true := by
        rw [List.all_reverse]
        exact hmid
      have horig : replay false (a :: (mid ++ [b])).reverse =
          applyCommand (applyCommand false b.command) a.command := by
        rw [hrev, replay_cons, replay_append, replay_all_update hmidrev, replay_cons]
        rfl
      rw [horig, compressSeq_eval]
      have hdrop : ∀ c : Command, a.command = c → c ≠ Command.u →
          ¬((a :: mid).all isUpdate = true) := by
        intro c hc hcu hall
        rw [List.all_cons, Bool.and_eq_true] at hall
        rw [not_isUpdate_of_command hc hcu] at hall
        exact absurd hall.1 (by simp)
      rcases hb : b.command with h1 | h1 | h1
      · rcases ha : a.command
        · exact absurd ha hhead
        · have hall : (a :: mid).all isUpdate = true := by
            rw [List.all_cons, Bool.and_eq_true]
            exact ⟨isUpdate_of_command ha, hmid⟩
          rw [if_pos rfl, if_pos hall]
          simp [replay, applyCommand, hb, ha]
        · rw [if_pos rfl, if_neg (hdrop _ ha (by simp)), if_pos rfl]
          simp [replay, applyCommand, hb, ha]
      · rcases ha : a.command
        · exact absurd ha hhead
        · have hall : (a :: mid).all isUpdate = true := by
            rw [List.all_cons, Bool.and_eq_true]
            exact ⟨isUpdate_of_command ha, hmid⟩
          rw [if_neg (by simp), if_pos rfl, if_pos hall]
          simp [replay, applyCommand, hb, ha]
        · rw [if_neg (by simp), if_pos rfl, if_neg (hdrop _ ha (by simp)), if_pos rfl]
          simp [replay, applyCommand, hb, ha]
      · exact absurd hb hlast

/-- C6 witness: the legal run Insert-then-Update compacts to the Insert alone
with the same net effect, and the legal descending sequence Update-then-Insert
likewise. -/
theorem compression_net_effect_witness :
    replay false (contribSeq [sampleI, sampleU]) = replay false [sampleI, sampleU] ∧
    replay false (compressSeq [sampleU, sampleI]).reverse
      = replay false [sampleU, sampleI].reverse :=
  ⟨(compression_net_effect [sampleI, sampleU]).1 (by simp)
      ⟨by decide, fun _ => ⟨by decide, by decide⟩⟩,
    (compression_net_effect [sampleU, sampleI]).2 (by simp)
      ⟨by decide, fun _ => ⟨by decide, by decide⟩⟩⟩

theorem mem_dedupKeys {k : Nat × Nat} {l : List (Nat × Nat)} :
    k ∈ dedupKeys l ↔ k ∈ l := by
  induction l with
  | nil => simp [dedupKeys]
  | cons k2 ks ih =>
    by_cases hk : k = k2
    · subst hk; simp [dedupKeys]
    · simp [dedupKeys, List.mem_filter, ih, hk]

theorem nodup_dedupKeys (l : List (Nat × Nat)) : (dedupKeys l).Nodup := by
  induction l with
  | nil => simp [dedupKeys]
  | cons k ks ih =>
    rw [dedupKeys, List.nodup_cons]
    constructor
    · intro hc
      rw [List.mem_filter] at hc
      have := hc.2
      simp at this
    · exact ih.filter _

theorem dedupKeys_eq_self {l : List (Nat × Nat)} (h : l.Nodup) :
    dedupKeys l = l := by
  induction l with
  | nil => rfl
  | cons k ks ih =>
    rw [List.nodup_cons] at h
    rw [dedupKeys, ih h.2, List.filter_eq_self.mpr]
    intro x hx
    simp
    intro he
    subst he
    exact absurd hx h.1

theorem ne_nil_of_mem_groupByKey {l : List Operation} {run : List Operation}
    (h : run ∈ groupByKey l) : run ≠ [] := by
  rw [groupByKey, List.mem_map] at h
  obtain ⟨k, hk, rfl⟩ := h
  rw [mem_dedupKeys, List.mem_map] at hk
  obtain ⟨x, hx, rfl⟩ := hk
  intro hc
  have : x ∈ l.filter (fun op => decide (opKey op = opKey x)) := by
    rw [List.mem_filter]
    exact ⟨hx, by simp⟩
  rw [hc] at this
  simp at this

theorem mem_compressed {ops : List Operation} {op : Operation}
    (h : op ∈ compressed_operations ops) :
    op ∈ contribSeq (rowRun ops (opKey op)) := by
  rw [compressed_operations, sortByOrder, List.mem_insertionSort,
    List.mem_flatten] at h
  obtain ⟨l, hl, hop⟩ := h
  rw [List.mem_map] at hl
  obtain ⟨g, hg, rfl⟩ := hl
  rw [groupByKey, List.mem_map] at hg
  obtain ⟨k, _, rfl⟩ := hg
  have hopg := contribSeq_subset hop
  rw [List.mem_filter] at hopg
  have hkey : opKey op = k := by simpa using hopg.2
  subst hkey
  exact hop

/-- C10: `compressed_operations` validates nothing — a per-row run of two or
more operations matching none of the three handled patterns (in particular
any multi-element run whose oldest element is a Delete) contributes nothing,
so the whole run is silently omitted from the returned list. -/
theorem compressed_operations_drops_unmatched (ops : List Operation)
    (op : Operation) (hlen : 2 ≤ (rowRun ops (opKey op)).length)
    (hshape : ((rowRun ops (opKey op)).headD default).command = Command.d ∨
      (¬runShapeInsert (rowRun ops (opKey op)) ∧
        ¬runShapeAllUpdate (rowRun ops (opKey op)) ∧
        ¬runShapeEndDelete (rowRun ops (opKey op)))) :
    contribSeq (rowRun ops (opKey op)) = [] ∧
      op ∉ compressed_operations ops := by
  obtain ⟨a, mid, b, hdec⟩ := two_le_decomp _ hlen
  have hneg : ¬runShapeInsert (rowRun ops (opKey op)) ∧
      ¬runShapeAllUpdate (rowRun ops (opKey op)) ∧
      ¬runShapeEndDelete (rowRun ops (opKey op)) := by
    rcases hshape with hd | hn
    · rw [hdec] at hd ⊢
      rw [List.headD_cons] at hd
      refine ⟨?_, ?_, ?_⟩ <;>
        · rintro ⟨h1, -⟩
          rw [List.headD_cons, hd] at h1
          simp at h1
    · exact hn
  have hnil : contribSeq (rowRun ops (opKey op)) = [] := by
    rw [hdec] at hneg ⊢
    rw [contribSeq_eval]
    obtain ⟨hn1, hn2, hn3⟩ := hneg
    rw [runShapeInsert, List.headD_cons] at hn1
    rw [runShapeAllUpdate, List.headD_cons] at hn2
    rw [runShapeEndDelete, List.headD_cons, getLastD_cons_concat] at hn3
    have hd1 : (List.drop 1 (a :: (mid ++ [b]))) = mid ++ [b] := rfl
    rw [hd1] at hn1 hn2
    rw [if_neg hn1]
    by_cases ha : a.command = Command.u
    · rw [if_pos ha]
      rw [if_neg (fun hc => hn2 ⟨ha, hc⟩), if_neg (fun hc => hn3 ⟨ha, hc⟩)]
    · rw [if_neg ha]
  refine ⟨hnil, fun hc => ?_⟩
  have := mem_compressed hc
  rw [hnil] at this
  simp at this

/-- C10 witness: the run Delete-then-Update over one row is dropped whole. -/
theorem compressed_operations_drops_unmatched_witness :
    contribSeq (rowRun [sampleD1, sampleU] (opKey sampleD1)) = [] ∧
      sampleD1 ∉ compressed_operations [sampleD1, sampleU] :=
  compressed_operations_drops_unmatched [sampleD1, sampleU] sampleD1
    (by decide) (Or.inl (by decide))

/-- C4: each per-row ascending run of `compressed_operations` contributes the
single Insert when an Insert is followed only by Updates, a single Update
when the run is all Updates, the trailing Delete when leading Updates end in
Delete, and the element itself for a singleton run; the returned list is
always sorted ascending by order. -/
theorem compressed_operations_spec (ops : List Operation) :
    List.Sorted orderLe (compressed_operations ops) ∧
    compressed_operations ops =
      sortByOrder ((groupByKey (sortByOrder ops)).map contribSeq).flatten ∧
    ∀ run ∈ groupByKey (sortByOrder ops),
      (runShapeInsert run → contribSeq run = [run.headD default]) ∧
      (run.all isUpdate = true → contribSeq run = [run.headD default]) ∧
      (2 ≤ run.length → run.dropLast.all isUpdate = true →
          (run.getLastD default).command = Command.d →
        contribSeq run = [run.getLastD default]) ∧
      (run.length = 1 → contribSeq run = run) := by
  refine ⟨List.sorted_insertionSort orderLe _, rfl, ?_⟩
  intro run hrun
  have hne : run ≠ [] := ne_nil_of_mem_groupByKey hrun
  rcases list_shape run with h | ⟨x, h⟩ | ⟨a, mid, b, h⟩
  · exact absurd h hne
  · subst h
    refine ⟨fun _ => ?_, fun _ => ?_, fun h2 _ _ => ?_, fun _ => ?_⟩
    · rw [contribSeq_singleton]; rfl
    · rw [contribSeq_singleton]; rfl
    · simp at h2
    · rw [contribSeq_singleton]
  · subst h
    have hd1 : (List.drop 1 (a :: (mid ++ [b]))) = mid ++ [b] := rfl
    refine ⟨?_, ?_, ?_, ?_⟩
    · rintro ⟨hh, hall⟩
      rw [List.headD_cons] at hh
      rw [hd1] at hall
      rw [contribSeq_eval, if_pos ⟨hh, hall⟩, List.headD_cons]
    · intro hall
      rw [List.all_cons, Bool.and_eq_true] at hall
      have ha : a.command = Command.u := by simpa [isUpdate] using hall.1
      rw [contribSeq_eval, if_neg (fun hc => by rw [ha] at hc; simp at hc),
        if_pos ha, if_pos hall.2, List.headD_cons]
    · intro _ hdrop hlast
      rw [dropLast_cons_concat, List.all_cons, Bool.and_eq_true] at hdrop
      have ha : a.command = Command.u := by simpa [isUpdate] using hdrop.1
      rw [getLastD_cons_concat] at hlast
      have hnall : ¬((mid ++ [b]).all isUpdate = true) := by
        rw [List.all_append, Bool.and_eq_true]
        intro hc
        have := hc.2
        simp [isUpdate, hlast] at this
      rw [contribSeq_eval, if_neg (fun hc => hnall hc.2), if_pos ha,
        if_neg hnall, if_pos hlast, getLastD_cons_concat]
    · intro hl
      simp at hl

/-- C4 witness: the run Insert-then-Update keeps the Insert, and the output
of `compressed_operations` on it is sorted. -/
theorem compressed_operations_spec_witness :
    contribSeq [sampleI, sampleU] = [sampleI] ∧
      List.Sorted orderLe (compressed_operations [sampleI, sampleU]) := by
  have h := compressed_operations_spec [sampleI, sampleU]
  refine ⟨?_, h.1⟩
  have hrun := h.2.2 [sampleI, sampleU] (by decide)
  exact hrun.1 ⟨by decide, by decide⟩

/-- C3 witness: the newest-first sequence Update-then-Insert keeps only the
Insert under destructive compaction. -/
theorem compress_spec_witness :
    compressSeq [sampleU, sampleI] = [sampleI] :=
  ((compress_spec [sampleU, sampleI]).1 (by decide)).1 (by decide) (by decide)

theorem groupByKey_of_nodup {l : List Operation} (h : (l.map opKey).Nodup) :
    groupByKey l = l.map (fun x => [x]) := by
  induction l with
  | nil => rfl
  | cons x xs ih =>
    rw [List.map_cons, List.nodup_cons] at h
    obtain ⟨hx, hxs⟩ := h
    have hfilt : ((dedupKeys (xs.map opKey)).filter
        (fun k => decide (k ≠ opKey x))) = dedupKeys (xs.map opKey) := by
      rw [List.filter_eq_self]
      intro k hk
      simp only [decide_eq_true_eq]
      intro he
      subst he
      exact hx (mem_dedupKeys.mp hk)
    rw [groupByKey, List.map_cons, dedupKeys, hfilt, dedupKeys_eq_self hxs,
      List.map_cons]
    congr 1
    · rw [List.filter_cons_of_pos (by simp), List.filter_eq_nil_iff.mpr]
      intro y hy
      simp only [decide_eq_true_eq]
      intro he
      exact hx (he ▸ List.mem_map_of_mem opKey hy)
    · have h1 : ∀ k ∈ xs.map opKey,
          (x :: xs).filter (fun op => decide (opKey op = k)) =
            xs.filter (fun op => decide (opKey op = k)) := by
        intro k hk
        rw [List.filter_cons_of_neg]
        simp only [decide_eq_true_eq]
        intro he
        subst he
        exact hx hk
      rw [List.map_congr_left h1]
      have h2 : groupByKey xs =
          (xs.map opKey).map (fun k => xs.filter (fun op => decide (opKey op = k))) := by
        rw [groupByKey, dedupKeys_eq_self hxs]
      rw [← h2, ih hxs]

theorem flatten_map_singleton {α : Type} (l : List α) :
    (l.map (fun x => [x])).flatten = l := by
  induction l with
  | nil => rfl
  | cons x xs ih => simp only [List.map_cons, List.flatten_cons, ih]; rfl

theorem sorted_compressed (ops : List Operation) :
    List.Sorted orderLe (compressed_operations ops) :=
  List.sorted_insertionSort orderLe _

theorem compressed_fixed {l : List Operation} (hs : List.Sorted orderLe l)
    (hk : (l.map opKey).Nodup) : compressed_operations l = l := by
  have h1 : sortByOrder l = l := List.Sorted.insertionSort_eq hs
  simp only [compressed_operations]
  rw [h1, groupByKey_of_nodup hk, List.map_map]
  simp only [Function.comp_def]
  rw [List.map_congr_left (fun x _ => contribSeq_singleton x),
    flatten_map_singleton]
  exact h1

theorem pairwise_length_le_one {α : Type} {R : α → α → Prop} {l : List α}
    (h : l.length ≤ 1) : l.Pairwise R := by
  match l with
  | [] => exact List.Pairwise.nil
  | [x] => exact List.pairwise_singleton R x
  | a :: b :: t => simp at h

theorem keys_nodup_compressed (ops : List Operation) :
    ((compressed_operations ops).map opKey).Nodup := by
  have hpw : List.Pairwise (fun a b : Operation => opKey a ≠ opKey b)
      (compressed_operations ops) := ?_
  · rw [List.Nodup, List.pairwise_map]
    exact hpw
  have hperm : List.Perm (compressed_operations ops)
      ((groupByKey (sortByOrder ops)).map contribSeq).flatten := by
    simp only [compressed_operations, sortByOrder]
    exact List.perm_insertionSort orderLe _
  refine (hperm.pairwise_iff (fun h => h.symm)).mpr ?_
  rw [List.pairwise_flatten]
  constructor
  · intro l2 hl2
    rw [List.mem_map] at hl2
    obtain ⟨g, _, rfl⟩ := hl2
    exact pairwise_length_le_one (contribSeq_length_le g)
  · rw [groupByKey, List.map_map, List.pairwise_map]
    have hnd := nodup_dedupKeys ((sortByOrder ops).map opKey)
    refine hnd.imp ?_
    intro k1 k2 hk x hx y hy
    have hx2 := contribSeq_subset hx
    rw [List.mem_filter] at hx2
    have hy2 := contribSeq_subset hy
    rw [List.mem_filter] at hy2
    have e1 : opKey x = k1 := by simpa using hx2.2
    have e2 : opKey y = k2 := by simpa using hy2.2
    rw [e1, e2]
    exact hk

theorem compressSeq_cases (s : List Operation) :
    (compressSeq s).length ≤ 1 ∨ compressSeq s = s := by
  rcases list_shape s with h | ⟨x, h⟩ | ⟨a, mid, b, h⟩
  · subst h; left; simp [compressSeq]
  · subst h; right; exact compressSeq_small (by simp)
  · subst h
    rw [compressSeq_eval]
    split_ifs <;> simp

/-- C5: both compaction paths are idempotent — `compressed_operations` is a
fixed point on its own output, and running the destructive per-sequence
compaction on an already-compacted sequence leaves it unchanged. -/
theorem compression_idempotent :
    (∀ ops : List Operation,
      compressed_operations (compressed_operations ops) = compressed_operations ops) ∧
    (∀ seq : List Operation, compressSeq (compressSeq seq) = compressSeq seq) := by
  constructor
  · intro ops
    exact compressed_fixed (sorted_compressed ops) (keys_nodup_compressed ops)
  · intro seq
    rcases compressSeq_cases seq with h | h
    · exact compressSeq_small h
    · rw [h]
      exact h

theorem latestVersionIdAux_eq_none {vs : List Version} :
    latestVersionIdAux vs = none ↔ vs = [] := by
  cases vs with
  | nil => simp [latestVersionIdAux]
  | cons v vs2 =>
    simp only [latestVersionIdAux]
    cases latestVersionIdAux vs2 <;> simp

theorem le_of_latestVersionIdAux {vs : List Version} {m : Nat}
    (h : latestVersionIdAux vs = some m) : ∀ v ∈ vs, v.version_id ≤ m := by
  induction vs generalizing m with
  | nil => simp [latestVersionIdAux] at h
  | cons v vs2 ih =>
    intro w hw
    simp only [latestVersionIdAux] at h
    cases hvs : latestVersionIdAux vs2 with
    | none =>
      rw [hvs] at h
      have hm : v.version_id = m := by
        simpa using h
      have hnil : vs2 = [] := latestVersionIdAux_eq_none.mp hvs
      rcases List.mem_cons.mp hw with rfl | hw2
      · omega
      · rw [hnil] at hw2
        simp at hw2
    | some m2 =>
      rw [hvs] at h
      have hm : max v.version_id m2 = m := by
        simpa using h
      rcases List.mem_cons.mp hw with rfl | hw2
      · omega
      · have := ih hvs w hw2
        omega

/-- C7: `handle_pull` never rejects — it is a total function of the request;
an absent or unparseable `latest_version_id` returns every version; an
integer value returns exactly the versions with strictly greater id, in
ascending order (so the result is empty when the value equals the current
latest); row payload objects are embedded unless `fast_forward` is present. -/
theorem handle_pull_spec (st : ServerState) (req : PullRequest)
    (hsorted : List.Sorted vidLe st.versions) :
    (handle_pull st req).swell = !req.fast_forward ∧
    (parseVid req.latest_version_id = none →
      (handle_pull st req).versions = st.versions) ∧
    (∀ n : Int, parseVid req.latest_version_id = some n →
      ∀ v : Version, v ∈ (handle_pull st req).versions ↔
        v ∈ st.versions ∧ n < (v.version_id : Int)) ∧
    List.Sorted vidLe (handle_pull st req).versions ∧
    (∀ m : Nat, getLatestVersionId st = some m →
      parseVid req.latest_version_id = some (m : Int) →
      (handle_pull st req).versions = []) := by
  unfold handle_pull
  cases hp : parseVid req.latest_version_id with
  | none =>
    refine ⟨rfl, fun _ => rfl, ?_, hsorted, ?_⟩
    · intro n hn
      exact Option.noConfusion hn
    · intro m _ hc
      exact Option.noConfusion hc
  | some n =>
    refine ⟨rfl, ?_, ?_, ?_, ?_⟩
    · intro hc
      exact Option.noConfusion hc
    · intro n2 hn2 v
      have he : n = n2 := by
        injection hn2
      subst he
      rw [List.mem_filter]
      simp
    · exact List.Pairwise.filter _ hsorted
    · intro m hm hmn
      have hnm : n = (m : Int) := by
        injection hmn
      rw [List.filter_eq_nil_iff]
      intro v hv
      simp only [decide_eq_true_eq, not_lt, hnm]
      exact_mod_cast le_of_latestVersionIdAux hm v hv

/-- C7 witness: on a two-version ledger, pulling from version 1 returns only
version 2, and pulling from the current latest returns nothing. -/
theorem handle_pull_spec_witness :
    ((handle_pull stV ⟨RawVid.val 1, false⟩).versions = [⟨2, 5⟩] ∧
      (handle_pull stV ⟨RawVid.val 1, false⟩).swell = true) ∧
    (handle_pull stV ⟨RawVid.val 2, true⟩).versions = [] := by
  have hsorted : List.Sorted vidLe stV.versions := by
    simp [stV, List.Sorted, vidLe]
  refine ⟨⟨?_, ?_⟩, ?_⟩
  · rfl
  · exact (handle_pull_spec stV ⟨RawVid.val 1, false⟩ hsorted).1
  · exact (handle_pull_spec stV ⟨RawVid.val 2, true⟩ hsorted).2.2.2.2 2 rfl rfl

theorem assignOrders_map_version (start vid : Nat) (ops : List Operation) :
    (assignOrders start vid ops).map (fun o => o.version_id) =
      List.replicate ops.length (some vid) := by
  induction ops generalizing start with
  | nil => rfl
  | cons op rest ih =>
    simp only [assignOrders, List.map_cons, List.length_cons, List.replicate, ih]

theorem assignOrders_map_order (start vid : Nat) (ops : List Operation) :
    (assignOrders start vid ops).map (fun o => o.order) =
      List.range' start ops.length := by
  induction ops generalizing start with
  | nil => rfl
  | cons op rest ih =>
    simp only [assignOrders, List.map_cons, List.length_cons, List.range'_succ, ih]

theorem assignOrders_map_core (start vid : Nat) (ops : List Operation) :
    (assignOrders start vid ops).map (fun o => (o.row_id, o.content_type_id, o.command)) =
      ops.map (fun o => (o.row_id, o.content_type_id, o.command)) := by
  induction ops generalizing start with
  | nil => rfl
  | cons op rest ih =>
    simp only [assignOrders, List.map_cons, ih]

/-- C8: a successful push creates exactly one new Version attributed to the
pushing node and returns its id, which is the next id above the ledger's
latest; every incoming operation is re-persisted in ascending client order
with `version_id` set to the new version and fresh, consecutive
server-assigned `order` values — the client-submitted order is discarded. -/
theorem handle_push_success_spec (legit : ServerState → PushMessage → Bool)
    (st st2 : ServerState) (msg : PushMessage) (vid : Nat)
    (h : handle_push legit st (some msg) = (st2, Except.ok vid)) :
    vid = (getLatestVersionId st).getD 0 + 1 ∧
    st2.versions = st.versions ++ [⟨vid, msg.node_id⟩] ∧
    st2.operations = st.operations ++
      assignOrders st.nextOrder vid (sortByOrder msg.operations) ∧
    (assignOrders st.nextOrder vid (sortByOrder msg.operations)).map
        (fun o => o.version_id) =
      List.replicate msg.operations.length (some vid) ∧
    (assignOrders st.nextOrder vid (sortByOrder msg.operations)).map
        (fun o => o.order) =
      List.range' st.nextOrder msg.operations.length ∧
    (assignOrders st.nextOrder vid (sortByOrder msg.operations)).map
        (fun o => (o.row_id, o.content_type_id, o.command)) =
      (sortByOrder msg.operations).map
        (fun o => (o.row_id, o.content_type_id, o.command)) := by
  have hmain : handlePushTx legit st (some msg) = Except.ok (st2, vid) := by
    unfold handle_push at h
    cases htx : handlePushTx legit st (some msg) with
    | error e =>
      rw [htx] at h
      simp at h
    | ok p =>
      rw [htx] at h
      obtain ⟨st3, vid3⟩ := p
      simp only [Prod.mk.injEq, Except.ok.injEq] at h
      rw [h.1, h.2]
  simp only [handlePushTx] at hmain
  by_cases h1 : getLatestVersionId st ≠ msg.latest_version_id
  · rw [if_pos h1] at hmain
    cases hml : msg.latest_version_id with
    | none =>
      rw [hml] at hmain
      simp at hmain
    | some n =>
      rw [hml] at hmain
      simp at hmain
  rw [if_neg h1] at hmain
  by_cases h2 : msg.operations = []
  · rw [if_pos h2] at hmain
    simp at hmain
  rw [if_neg h2] at hmain
  by_cases h3 : legit st msg = false
  · rw [if_pos h3] at hmain
    simp at hmain
  rw [if_neg h3] at hmain
  cases hperf : performAll st.rows msg.operations with
  | error e =>
    rw [hperf] at hmain
    simp at hmain
  | ok rows2 =>
    rw [hperf] at hmain
    simp only [Except.ok.injEq, Prod.mk.injEq] at hmain
    obtain ⟨hst, hvid⟩ := hmain
    subst hvid
    rw [← hst]
    refine ⟨rfl, rfl, rfl, ?_, ?_, assignOrders_map_core _ _ _⟩
    · rw [assignOrders_map_version]
      simp [sortByOrder]
    · rw [assignOrders_map_order]
      simp [sortByOrder]

/-- C8 witness: pushing one insert against the empty ledger yields version 1
attributed to node 5 and one re-persisted operation with server order 1. -/
theorem handle_push_success_witness :
    stPushed.versions = st0.versions ++ [⟨1, msgI.node_id⟩] ∧
    stPushed.operations = st0.operations ++
      assignOrders st0.nextOrder 1 (sortByOrder msgI.operations) :=
  ⟨(handle_push_success_spec legitAll st0 stPushed msgI 1 rfl).2.1,
    (handle_push_success_spec legitAll st0 stPushed msgI 1 rfl).2.2.1⟩

/-- C9: if any operation of an admitted push fails to apply, the whole push
is rejected: the transaction rolls back (the returned state is the input
state, so none of the batch is committed) and the rejection carries the node
id and the offending operation's context. -/
theorem handle_push_op_failure_spec (legit : ServerState → PushMessage → Bool)
    (st : ServerState) (msg : PushMessage) (e : OpError)
    (hperf : performAll st.rows msg.operations = Except.error e)
    (hver : getLatestVersionId st = msg.latest_version_id)
    (hne : msg.operations ≠ [])
    (hlegit : legit st msg = true) :
    handle_push legit st (some msg) =
      (st, Except.error (PushError.rejected
        (PushRejectedE.operationFailure msg.node_id e))) := by
  have htx : handlePushTx legit st (some msg) =
      Except.error (PushError.rejected
        (PushRejectedE.operationFailure msg.node_id e)) := by
    simp only [handlePushTx]
    rw [if_neg (fun hc => hc hver), if_neg hne, if_neg (by simp [hlegit]), hperf]
  unfold handle_push
  rw [htx]

/-- C9 witness: the push of a single Update against an empty row store is
rejected whole, with the input state returned unchanged. -/
theorem handle_push_op_failure_witness :
    handle_push legitAll st0 (some msgU) =
      (st0, Except.error (PushError.rejected
        (PushRejectedE.operationFailure 5 ⟨⟨1, 7, 3, Command.u⟩⟩))) :=
  handle_push_op_failure_spec legitAll st0 msgU ⟨⟨1, 7, 3, Command.u⟩⟩
    rfl rfl (by simp [msgU]) rfl

/-- C1 (amended): `handle_push` raises a PushRejected rejection, leaving the
state unchanged, exactly when one of these holds, checked in this order:
(1) the input does not parse as a PushMessage; (2) the message's
`latest_version_id` is an integer not exactly equal to the ledger's current
latest; (3) the operations list is empty; (4) the signature does not verify;
or (5) some operation of the admitted batch fails to apply.  Exception to
(2): when the message's `latest_version_id` is null and differs from the
ledger's latest, formatting the rejection reason raises a TypeError instead
of a PushRejected (handlers.py line 167); that path too performs no state
change.  The first failing check determines the outcome. -/
theorem handle_push_reject_spec (legit : ServerState → PushMessage → Bool)
    (st : ServerState) (data : Option PushMessage) :
    (isReject (handle_push legit st data).2 = true ↔
      data = none ∨ ∃ msg, data = some msg ∧
        ((getLatestVersionId st ≠ msg.latest_version_id ∧
            ∃ n, msg.latest_version_id = some n) ∨
          (getLatestVersionId st = msg.latest_version_id ∧
            (msg.operations = [] ∨ legit st msg = false ∨
              ∃ e, performAll st.rows msg.operations = Except.error e)))) ∧
    (isTypeError (handle_push legit st data).2 = true ↔
      ∃ msg, data = some msg ∧ getLatestVersionId st ≠ msg.latest_version_id ∧
        msg.latest_version_id = none) ∧
    ((isReject (handle_push legit st data).2 = true ∨
        isTypeError (handle_push legit st data).2 = true) →
      (handle_push legit st data).1 = st) ∧
    (data = none → (handle_push legit st data).2 =
      Except.error (PushError.rejected PushRejectedE.invalidMessage)) ∧
    (∀ msg n, data = some msg → msg.latest_version_id = some n →
      getLatestVersionId st ≠ some n →
      (handle_push legit st data).2 =
        Except.error (PushError.rejected (PushRejectedE.versionMismatch n))) ∧
    (∀ msg, data = some msg → msg.latest_version_id = none →
      getLatestVersionId st ≠ none →
      (handle_push legit st data).2 = Except.error PushError.typeError) ∧
    (∀ msg, data = some msg → getLatestVersionId st = msg.latest_version_id →
      msg.operations = [] →
      (handle_push legit st data).2 =
        Except.error (PushError.rejected PushRejectedE.emptyOperations)) ∧
    (∀ msg, data = some msg → getLatestVersionId st = msg.latest_version_id →
      msg.operations ≠ [] → legit st msg = false →
      (handle_push legit st data).2 =
        Except.error (PushError.rejected PushRejectedE.notSigned)) := by
  cases data with
  | none =>
    refine ⟨⟨fun _ => Or.inl rfl, fun _ => rfl⟩, ?_, fun _ => rfl, fun _ => rfl,
      ?_, ?_, ?_, ?_⟩
    · constructor
      · intro hc
        simp [isTypeError, handle_push, handlePushTx] at hc
      · rintro ⟨msg2, he, -⟩
        exact Option.noConfusion he
    · intro msg2 n he _ _
      exact Option.noConfusion he
    · intro msg2 he _ _
      exact Option.noConfusion he
    · intro msg2 he _ _
      exact Option.noConfusion he
    · intro msg2 he _ _ _
      exact Option.noConfusion he
  | some msg =>
    have hinj : ∀ msg2 : PushMessage, some msg = some msg2 → msg2 = msg := by
      intro msg2 hc
      injection hc with h
      exact h.symm
    by_cases h1 : getLatestVersionId st ≠ msg.latest_version_id
    · cases hml : msg.latest_version_id with
      | none =>
        have hp : handle_push legit st (some msg) =
            (st, Except.error PushError.typeError) := by
          unfold handle_push
          have htx : handlePushTx legit st (some msg) =
              Except.error PushError.typeError := by
            simp only [handlePushTx]
            rw [if_pos h1, hml]
          rw [htx]
        refine ⟨?_, ?_, ?_, ?_, ?_, ?_, ?_, ?_⟩
        · rw [hp]
          constructor
          · intro hc
            simp [isReject] at hc
          · rintro (hc | ⟨msg2, he, hc⟩)
            · exact Option.noConfusion hc
            · rw [hinj msg2 he] at hc
              rcases hc with ⟨-, n, hn⟩ | ⟨hm, -⟩
              · rw [hml] at hn
                exact Option.noConfusion hn
              · exact absurd hm h1
        · rw [hp]
          exact ⟨fun _ => ⟨msg, rfl, h1, hml⟩, fun _ => rfl⟩
        · intro _
          rw [hp]
        · intro hc
          exact Option.noConfusion hc
        · intro msg2 n he hsome _
          rw [hinj msg2 he] at hsome
          rw [hml] at hsome
          exact Option.noConfusion hsome
        · intro msg2 he _ _
          rw [hp]
        · intro msg2 he hm _
          rw [hinj msg2 he] at hm
          exact absurd hm h1
        · intro msg2 he hm _ _
          rw [hinj msg2 he] at hm
          exact absurd hm h1
      | some n =>
        have hp : handle_push legit st (some msg) =
            (st, Except.error (PushError.rejected
              (PushRejectedE.versionMismatch n))) := by
          unfold handle_push
          have htx : handlePushTx legit st (some msg) =
              Except.error (PushError.rejected
                (PushRejectedE.versionMismatch n)) := by
            simp only [handlePushTx]
            rw [if_pos h1, hml]
          rw [htx]
        refine ⟨?_, ?_, ?_, ?_, ?_, ?_, ?_, ?_⟩
        · rw [hp]
          exact ⟨fun _ => Or.inr ⟨msg, rfl, Or.inl ⟨h1, n, hml⟩⟩, fun _ => rfl⟩
        · rw [hp]
          constructor
          · intro hc
            simp [isTypeError] at hc
          · rintro ⟨msg2, he, -, hnone⟩
            rw [hinj msg2 he] at hnone
            rw [hml] at hnone
            exact Option.noConfusion hnone
        · intro _
          rw [hp]
        · intro hc
          exact Option.noConfusion hc
        · intro msg2 n2 he hsome _
          rw [hinj msg2 he] at hsome
          rw [hml] at hsome
          injection hsome with hn
          subst hn
          rw [hp]
        · intro msg2 he hnone _
          rw [hinj msg2 he] at hnone
          rw [hml] at hnone
          exact Option.noConfusion hnone
        · intro msg2 he hm _
          rw [hinj msg2 he] at hm
          exact absurd hm h1
        · intro msg2 he hm _ _
          rw [hinj msg2 he] at hm
          exact absurd hm h1
    · have heq : getLatestVersionId st = msg.latest_version_id := not_not.mp h1
      by_cases h2 : msg.operations = []
      · have hp : handle_push legit st (some msg) =
            (st, Except.error (PushError.rejected
              PushRejectedE.emptyOperations)) := by
          unfold handle_push
          have htx : handlePushTx legit st (some msg) =
              Except.error (PushError.rejected PushRejectedE.emptyOperations) := by
            simp only [handlePushTx]
            rw [if_neg h1, if_pos h2]
          rw [htx]
        refine ⟨?_, ?_, ?_, ?_, ?_, ?_, ?_, ?_⟩
        · rw [hp]
          exact ⟨fun _ => Or.inr ⟨msg, rfl, Or.inr ⟨heq, Or.inl h2⟩⟩, fun _ => rfl⟩
        · rw [hp]
          constructor
          · intro hc
            simp [isTypeError] at hc
          · rintro ⟨msg2, he, hne, -⟩
            rw [hinj msg2 he] at hne
            exact absurd heq hne
        · intro _
          rw [hp]
        · intro hc
          exact Option.noConfusion hc
        · intro msg2 n he hsome hne
          rw [hinj msg2 he] at hsome
          exact absurd (heq.trans hsome) hne
        · intro msg2 he hnone hne
          rw [hinj msg2 he] at hnone
          exact absurd (heq.trans hnone) hne
        · intro msg2 he _ _
          rw [hp]
        · intro msg2 he _ hne _
          rw [hinj msg2 he] at hne
          exact absurd h2 hne
      · by_cases h3 : legit st msg = false
        · have hp : handle_push legit st (some msg) =
              (st, Except.error (PushError.rejected PushRejectedE.notSigned)) := by
            unfold handle_push
            have htx : handlePushTx legit st (some msg) =
                Except.error (PushError.rejected PushRejectedE.notSigned) := by
              simp only [handlePushTx]
              rw [if_neg h1, if_neg h2, if_pos h3]
            rw [htx]
          refine ⟨?_, ?_, ?_, ?_, ?_, ?_, ?_, ?_⟩
          · rw [hp]
            exact ⟨fun _ => Or.inr ⟨msg, rfl,
              Or.inr ⟨heq, Or.inr (Or.inl h3)⟩⟩, fun _ => rfl⟩
          · rw [hp]
            constructor
            · intro hc
              simp [isTypeError] at hc
            · rintro ⟨msg2, he, hne, -⟩
              rw [hinj msg2 he] at hne
              exact absurd heq hne
          · intro _
            rw [hp]
          · intro hc
            exact Option.noConfusion hc
          · intro msg2 n he hsome hne
            rw [hinj msg2 he] at hsome
            exact absurd (heq.trans hsome) hne
          · intro msg2 he hnone hne
            rw [hinj msg2 he] at hnone
            exact absurd (heq.trans hnone) hne
          · intro msg2 he _ hemp
            rw [hinj msg2 he] at hemp
            exact absurd hemp h2
          · intro msg2 he _ _ _
            rw [hp]
        · cases hperf : performAll st.rows msg.operations with
          | error e =>
            have hp : handle_push legit st (some msg) =
                (st, Except.error (PushError.rejected
                  (PushRejectedE.operationFailure msg.node_id e))) := by
              unfold handle_push
              have htx : handlePushTx legit st (some msg) =
                  Except.error (PushError.rejected
                    (PushRejectedE.operationFailure msg.node_id e)) := by
                simp only [handlePushTx]
                rw [if_neg h1, if_neg h2, if_neg h3, hperf]
              rw [htx]
            refine ⟨?_, ?_, ?_, ?_, ?_, ?_, ?_, ?_⟩
            · rw [hp]
              exact ⟨fun _ => Or.inr ⟨msg, rfl,
                Or.inr ⟨heq, Or.inr (Or.inr ⟨e, hperf⟩)⟩⟩, fun _ => rfl⟩
            · rw [hp]
              constructor
              · intro hc
                simp [isTypeError] at hc
              · rintro ⟨msg2, he, hne, -⟩
                rw [hinj msg2 he] at hne
                exact absurd heq hne
            · intro _
              rw [hp]
            · intro hc
              exact Option.noConfusion hc
            · intro msg2 n he hsome hne
              rw [hinj msg2 he] at hsome
              exact absurd (heq.trans hsome) hne
            · intro msg2 he hnone hne
              rw [hinj msg2 he] at hnone
              exact absurd (heq.trans hnone) hne
            · intro msg2 he _ hemp
              rw [hinj msg2 he] at hemp
              exact absurd hemp h2
            · intro msg2 he _ _ hl
              rw [hinj msg2 he] at hl
              exact absurd hl h3
          | ok rows2 =>
            have hp : (handle_push legit st (some msg)).2 =
                Except.ok ((getLatestVersionId st).getD 0 + 1) := by
              unfold handle_push
              have htx : handlePushTx legit st (some msg) =
                  Except.ok
                    ({ versions := st.versions ++
                        [⟨(getLatestVersionId st).getD 0 + 1, msg.node_id⟩],
                       operations := st.operations ++
                        assignOrders st.nextOrder
                          ((getLatestVersionId st).getD 0 + 1)
                          (sortByOrder msg.operations),
                       rows := rows2,
                       nextOrder := st.nextOrder + msg.operations.length },
                      (getLatestVersionId st).getD 0 + 1) := by
                simp only [handlePushTx]
                rw [if_neg h1, if_neg h2, if_neg h3, hperf]
              rw [htx]
            refine ⟨?_, ?_, ?_, ?_, ?_, ?_, ?_, ?_⟩
            · rw [hp]
              constructor
              · intro hc
                simp [isReject] at hc
              · rintro (hc | ⟨msg2, he, hc⟩)
                · exact Option.noConfusion hc
                · rw [hinj msg2 he] at hc
                  rcases hc with ⟨hne, -⟩ | ⟨-, hc⟩
                  · exact absurd heq hne
                  · rcases hc with hc | hc | ⟨e, hc⟩
                    · exact absurd hc h2
                    · exact absurd hc h3
                    · rw [hperf] at hc
                      exact Except.noConfusion hc
            · rw [hp]
              constructor
              · intro hc
                simp [isTypeError] at hc
              · rintro ⟨msg2, he, hne, -⟩
                rw [hinj msg2 he] at hne
                exact absurd heq hne
            · intro hc
              rcases hc with hc | hc
              · rw [hp] at hc
                simp [isReject] at hc
              · rw [hp] at hc
                simp [isTypeError] at hc
            · intro hc
              exact Option.noConfusion hc
            · intro msg2 n he hsome hne
              rw [hinj msg2 he] at hsome
              exact absurd (heq.trans hsome) hne
            · intro msg2 he hnone hne
              rw [hinj msg2 he] at hnone
              exact absurd (heq.trans hnone) hne
            · intro msg2 he _ hemp
              rw [hinj msg2 he] at hemp
              exact absurd hemp h2
            · intro msg2 he _ _ hl
              rw [hinj msg2 he] at hl
              exact absurd hl h3

/-- C1 witness: with an empty ledger a push whose one Update hits a missing
row is rejected; against a nonempty ledger the same message (null
`latest_version_id`) makes the handler abort with the TypeError instead. -/
theorem handle_push_reject_spec_witness :
    isReject (handle_push legitAll st0 (some msgU)).2 = true ∧
    isTypeError (handle_push legitAll stV (some msgU)).2 = true :=
  ⟨(handle_push_reject_spec legitAll st0 (some msgU)).1.mpr
      (Or.inr ⟨msgU, rfl, Or.inr ⟨rfl,
        Or.inr (Or.inr ⟨⟨⟨1, 7, 3, Command.u⟩⟩, rfl⟩)⟩⟩),
    (handle_push_reject_spec legitAll stV (some msgU)).2.1.mpr
      ⟨msgU, rfl, by decide, rfl⟩⟩

/-- C1 counterexample: a push that passes all four admission checks — it
parses, its `latest_version_id` matches the ledger, its operations list is
nonempty and its signature verifies — is still rejected, because its one
operation fails to apply; so the four listed checks are not the only
rejection causes. -/
theorem handle_push_reject_beyond_admission :
    getLatestVersionId st0 = msgU.latest_version_id ∧
    msgU.operations ≠ [] ∧
    legitAll st0 msgU = true ∧
    isReject (handle_push legitAll st0 (some msgU)).2 = true :=
  ⟨rfl, by simp [msgU], rfl, rfl⟩

end DbSync
